import Mathlib

/-!
Verification of the completion engine of the `readline` shell library.

The candidate/value model is embedded from `internal/completion/values.go`;
the command layer is embedded from `completion.go` as state-transition
functions over an explicit `Shell` record that also logs the calls made to
the external collaborators (undo log, keymap controller, completion engine,
history provider, hint display) as a trace of `Action`s.
-/

namespace Readline

/-- Modelled from the spec: the `Candidate` record (defined outside the
provided sources) with the fields used by `values.go` and §3 of the spec:
insertable `Value`, displayed `Display`, group `Tag`, and the
`noSpace` metadata flag. -/
structure Candidate where
  Value : String
  Display : String
  Tag : String
  noSpace : Bool := false
deriving DecidableEq, Repr

/-- `RawValues` is a list of completion candidates (`values.go`). -/
abbrev RawValues : Type := List Candidate

/-- Models Go's `strings.ToLower`: case-fold every rune to lower case. -/
def goToLower (s : String) : String := String.mk (s.data.map Char.toLower)

/-- Models Go's `strings.HasPrefix`: the second string is a prefix of the
first one (rune-wise, which coincides with Go's byte-wise test). -/
def hasPrefixGo (s pre : String) : Bool := List.isPrefixOf pre.data s.data

/-- Models Go's `<` on strings: byte-wise lexicographic comparison, which
on UTF-8 encoded text coincides with rune-wise lexicographic comparison. -/
def charsLt : List Char → List Char → Bool
  | _, [] => false
  | [], _ :: _ => true
  | a :: as, b :: bs => if a < b then true else if b < a then false else charsLt as bs

/-- Embeds `RawValues.FilterPrefix` from `values.go`: keep the candidates
whose `Value` starts with the given leading string, comparing lower-cased
text on both sides when `matchCase` is false; an empty leading string
returns the receiver unchanged. -/
def FilterPrefix (c : RawValues) (pfx : String) (matchCase : Bool) : RawValues :=
  if pfx = "" then c
  else
    let pfx := if !matchCase then goToLower pfx else pfx
    List.filter
      (fun raw =>
        let val := if !matchCase then goToLower raw.Value else raw.Value
        hasPrefixGo val pfx)
      c

/-- Embeds `RawValues.Less` from `values.go`: candidate `i`'s lower-cased
`Value` is compared against candidate `j`'s lower-cased `Display`. -/
def Less (x : RawValues) (i j : Nat) (hi : i < List.length x) (hj : j < List.length x) : Bool :=
  charsLt (goToLower (List.get x ⟨i, hi⟩).Value).data (goToLower (List.get x ⟨j, hj⟩).Display).data

/-- Embeds `RawValues.EachTag`'s accumulation loop from `values.go`: one
step of the fold records a first-seen tag and appends the candidate to its
tag's group (the `tagGroups` Go map is modelled as a partial function). -/
def eachTagStep (st : List String × (String → Option RawValues)) (val : Candidate) :
    List String × (String → Option RawValues) :=
  match st.2 val.Tag with
  | none =>
      (st.1 ++ [val.Tag], fun t => if t = val.Tag then some [val] else st.2 t)
  | some g =>
      (st.1, fun t => if t = val.Tag then some (g ++ [val]) else st.2 t)

/-- The accumulation loop of `EachTag` over the whole candidate list. -/
def eachTagFold (c : RawValues) : List String × (String → Option RawValues) :=
  List.foldl eachTagStep ([], fun _ => none) c

/-- Embeds `RawValues.EachTag` from `values.go`, reified as the ordered
list of `(tag, group)` pairs handed to the callback. -/
def eachTag (c : RawValues) : List (String × RawValues) :=
  (eachTagFold c).1.map (fun tag => (tag, ((eachTagFold c).2 tag).getD []))

/-- Modelled from the spec: the `Messages` collaborator's merge keeps the
receiver's entries and unions in the argument's entries, never overwriting
an existing entry. -/
def messagesMerge (c other : List (String × String)) : List (String × String) :=
  List.foldl
    (fun acc kv => if List.lookup kv.1 acc = none then acc ++ [kv] else acc)
    c other

/-- Embeds the `ListLong` merge loop of `Values.Merge` from `values.go`:
every tag of the argument that the receiver does not yet hold is added
with the value `true`. -/
def listLongMerge (c other : List (String × Bool)) : List (String × Bool) :=
  List.foldl
    (fun acc kv => if List.lookup kv.1 acc = none then acc ++ [(kv.1, true)] else acc)
    c other

/-- Modelled from the spec: the `SuffixMatcher` (`NoSpace`) merge is a
growing union of suffix characters. -/
def noSpaceMerge (c other : List Char) : List Char :=
  List.foldl (fun acc ch => if ch ∈ acc then acc else acc ++ [ch]) c other

/-- The `Values` result bundle (`types.go` is outside the provided sources;
fields are the ones `Values.Merge` in `values.go` touches, per §3 of the
spec): usage string, no-space suffixes, per-tag messages, long-list tags. -/
structure Values where
  Usage : String := ""
  NoSpace : List Char := []
  Messages : List (String × String) := []
  ListLong : List (String × Bool) := []
deriving DecidableEq, Repr

/-- Embeds `Values.Merge` from `values.go`: a non-empty incoming usage
replaces the current one; `NoSpace`, `Messages` and `ListLong` are merged
by their growing unions. -/
def Values.Merge (c other : Values) : Values :=
  { Usage := if other.Usage ≠ "" then other.Usage else c.Usage
    NoSpace := noSpaceMerge c.NoSpace other.NoSpace
    Messages := messagesMerge c.Messages other.Messages
    ListLong := listLongMerge c.ListLong other.ListLong }

/-- The usage string that a fold of merges should end with: the most
recently seen non-empty usage, or the starting one if none appeared. -/
def lastUsage (u : String) (vs : List Values) : String :=
  List.foldl (fun acc v => if v.Usage ≠ "" then v.Usage else acc) u vs

/-- First-seen-order deduplication of a list of tags. -/
def dedupFirstSeen (ts : List String) : List String :=
  List.foldl (fun acc t => if t ∈ acc then acc else acc ++ [t]) [] ts

/-- Concrete candidates used for the case-fold consistency scenario. -/
def candABC : Candidate := { Value := "ABC", Display := "ABC", Tag := "" }

/-- Concrete candidates used for the case-fold consistency scenario. -/
def candabc : Candidate := { Value := "abc", Display := "abc", Tag := "" }

/-- The two-candidate set of the case-fold consistency scenario. -/
def caseCands : RawValues := [candABC, candabc]

/-- Candidates used to witness the ordering comparator's behavior. -/
def lessCands : RawValues :=
  [{ Value := "Alpha", Display := "Zeta", Tag := "" },
   { Value := "beta", Display := "Gamma", Tag := "" }]

/-!  Theorems  -/

/-- `charsLt` is exactly the lexicographic strict order on rune lists. -/
theorem charsLt_iff_lt : ∀ a b : List Char, charsLt a b = true ↔ a < b := by
  intro a
  induction a with
  | nil =>
    intro b
    cases b with
    | nil =>
      constructor
      · intro h; simp [charsLt] at h
      · intro h; exact absurd h (List.Lex.not_nil_right _ _)
    | cons x xs =>
      simp only [charsLt]
      exact iff_of_true (by simp) List.Lex.nil
  | cons x xs ih =>
    intro b
    cases b with
    | nil =>
      constructor
      · intro h; simp [charsLt] at h
      · intro h; exact absurd h (List.Lex.not_nil_right _ _)
    | cons y ys =>
      simp only [charsLt]
      by_cases hxy : x < y
      · rw [if_pos hxy]
        exact iff_of_true (by simp) (List.Lex.rel hxy)
      · rw [if_neg hxy]
        by_cases hyx : y < x
        · rw [if_pos hyx]
          constructor
          · intro h; simp at h
          · intro h
            exfalso
            have h' : List.Lex (· < ·) (x :: xs) (y :: ys) := h
            cases h' with
            | rel h'' => exact hxy h''
            | cons h'' => exact lt_irrefl _ hyx
        · rw [if_neg hyx]
          have heq : x = y := le_antisymm (not_lt.mp hyx) (not_lt.mp hxy)
          subst heq
          rw [ih ys]
          constructor
          · intro h; exact List.Lex.cons h
          · intro h
            have h' : List.Lex (· < ·) (x :: xs) (x :: ys) := h
            cases h' with
            | rel h'' => exact absurd h'' hxy
            | cons h'' => exact h''

/-- C2 counterexample: the claim also asserts that the case-sensitive
filter returns neither candidate, but on the set `["ABC", "abc"]` the
call `FilterPrefix "ab" true` keeps the candidate `"abc"`, whose value
does start with `"ab"` verbatim. -/
theorem filterPrefix_case_claim_refuted :
    ¬ ( FilterPrefix caseCands "ab" false = caseCands ∧
        FilterPrefix caseCands "ab" true = ([] : RawValues)) := by
  decide

/-- C2 (amended): on the two-candidate set with values `"ABC"` and
`"abc"`, `FilterPrefix "ab" false` keeps both candidates, and
`FilterPrefix "ab" true` keeps exactly the `"abc"` candidate. -/
theorem filterPrefix_case_fold_behavior :
    FilterPrefix caseCands "ab" false = caseCands ∧
    FilterPrefix caseCands "ab" true = [candabc] := by
  decide

/-- C3: the comparator `Less i j` holds exactly when candidate `i`'s
lower-cased `Value` is lexicographically below candidate `j`'s
lower-cased `Display` — a cross-field comparison, both sides folded to
lower case first. -/
theorem less_compares_value_against_display (x : RawValues) (i j : Nat)
    (hi : i < List.length x) (hj : j < List.length x) :
    Less x i j hi hj = true ↔
      (goToLower (List.get x ⟨i, hi⟩).Value).data <
        (goToLower (List.get x ⟨j, hj⟩).Display).data := by
  unfold Less
  exact charsLt_iff_lt _ _

/-- Witness for C3 at a concrete two-candidate set and indices 0, 1. -/
theorem less_compares_value_against_display_witness :
    (Less lessCands 0 1 (by decide) (by decide) = true ↔
      (goToLower (List.get lessCands ⟨0, by decide⟩).Value).data <
        (goToLower (List.get lessCands ⟨1, by decide⟩).Display).data) ∧
    Less lessCands 0 1 (by decide) (by decide) = true :=
  ⟨less_compares_value_against_display lessCands 0 1 (by decide) (by decide), by decide⟩

/-- C7: filtering twice by the same leading string (case-insensitively) is
the same as filtering once, and filtering by the empty string is the
identity for either case flag. -/
theorem filterPrefix_idempotent_empty_identity (c : RawValues) (p : String) (matchCase : Bool) :
    FilterPrefix ( FilterPrefix c p false) p false = FilterPrefix c p false ∧
    FilterPrefix c "" matchCase = c := by
  refine ⟨?_, by simp [FilterPrefix]⟩
  by_cases hp : p = ""
  · simp [FilterPrefix, hp]
  · simp only [FilterPrefix, hp, if_false, if_neg]
    rw [List.filter_filter]
    simp only [Bool.and_self]

/-- A fold whose step can only append to the accumulator extends it. -/
theorem foldl_extends {α β : Type} (f : List α → β → List α)
    (hf : ∀ a x, ∃ t, f a x = a ++ t) :
    ∀ (l : List β) (c : List α), ∃ r, List.foldl f c l = c ++ r := by
  intro l
  induction l with
  | nil => intro c; exact ⟨[], by simp⟩
  | cons x xs ih =>
    intro c
    obtain ⟨t, ht⟩ := hf c x
    obtain ⟨r, hr⟩ := ih (f c x)
    exact ⟨t ++ r, by rw [List.foldl_cons, hr, ht, List.append_assoc]⟩

/-- A successful association-list lookup survives appending on the right. -/
theorem lookup_append_some {β : Type} {k : String} {v : β} :
    ∀ (c r : List (String × β)), List.lookup k c = some v →
      List.lookup k (c ++ r) = some v := by
  intro c
  induction c with
  | nil => intro r h; simp at h
  | cons p ps ih =>
    intro r h
    obtain ⟨k', v'⟩ := p
    rw [List.cons_append]
    rw [List.lookup_cons] at h ⊢
    cases hk : (k == k') with
    | true => simp only [hk] at h ⊢; exact h
    | false => simp only [hk] at h ⊢; exact ih r h

/-- `messagesMerge` only appends to the receiver. -/
theorem messagesMerge_extends (c other : List (String × String)) :
    ∃ r, messagesMerge c other = c ++ r := by
  unfold messagesMerge
  refine foldl_extends _ ?_ other c
  intro a x
  by_cases h : List.lookup x.1 a = none
  · exact ⟨[x], by rw [if_pos h]⟩
  · exact ⟨[], by rw [if_neg h, List.append_nil]⟩

/-- `listLongMerge` only appends to the receiver. -/
theorem listLongMerge_extends (c other : List (String × Bool)) :
    ∃ r, listLongMerge c other = c ++ r := by
  unfold listLongMerge
  refine foldl_extends _ ?_ other c
  intro a x
  by_cases h : List.lookup x.1 a = none
  · exact ⟨[(x.1, true)], by rw [if_pos h]⟩
  · exact ⟨[], by rw [if_neg h, List.append_nil]⟩

/-- C5: under any sequence of merges, every message entry and every
long-list tag of the starting bundle is still present (and unchanged)
afterwards, and the usage string ends as the most recently merged
non-empty usage (merging an empty usage leaves it alone). -/
theorem merge_grows_and_usage_last_wins (init : Values) (vs : List Values) :
    (∀ k v, List.lookup k init.Messages = some v →
        List.lookup k (List.foldl Values.Merge init vs).Messages = some v) ∧
    (∀ k v, List.lookup k init.ListLong = some v →
        List.lookup k (List.foldl Values.Merge init vs).ListLong = some v) ∧
    (List.foldl Values.Merge init vs).Usage = lastUsage init.Usage vs := by
  induction vs generalizing init with
  | nil => exact ⟨fun k v h => h, fun k v h => h, rfl⟩
  | cons x xs ih =>
    rw [List.foldl_cons]
    obtain ⟨ihM, ihL, ihU⟩ := ih (Values.Merge init x)
    refine ⟨?_, ?_, ?_⟩
    · intro k v h
      refine ihM k v ?_
      obtain ⟨r, hr⟩ := messagesMerge_extends init.Messages x.Messages
      show List.lookup k (messagesMerge init.Messages x.Messages) = some v
      rw [hr]
      exact lookup_append_some _ _ h
    · intro k v h
      refine ihL k v ?_
      obtain ⟨r, hr⟩ := listLongMerge_extends init.ListLong x.ListLong
      show List.lookup k (listLongMerge init.ListLong x.ListLong) = some v
      rw [hr]
      exact lookup_append_some _ _ h
    · rw [ihU]
      rfl

/-- A starting bundle and two merged bundles for the C5 witness: the
second merged bundle has an empty usage, so the first one's survives. -/
def bundle0 : Values :=
  { Usage := "u0", Messages := [("files", "m0")], ListLong := [("files", true)] }

/-- First merged bundle for the C5 witness. -/
def bundle1 : Values :=
  { Usage := "u1", Messages := [("files", "clobber"), ("flags", "m1")], ListLong := [("flags", false)] }

/-- Second merged bundle for the C5 witness (empty usage). -/
def bundle2 : Values := { Messages := [], ListLong := [] }

/-- Membership in the first-seen dedup fold, for any starting accumulator. -/
theorem mem_foldl_dedup (ts : List String) :
    ∀ (acc : List String) (t : String),
      (t ∈ List.foldl (fun acc t => if t ∈ acc then acc else acc ++ [t]) acc ts) ↔
        t ∈ acc ∨ t ∈ ts := by
  induction ts with
  | nil => intro acc t; simp
  | cons x xs ih =>
    intro acc t
    rw [List.foldl_cons, ih]
    by_cases hx : x ∈ acc
    · rw [if_pos hx]
      constructor
      · intro h
        rcases h with h | h
        · exact Or.inl h
        · exact Or.inr (List.mem_cons_of_mem x h)
      · intro h
        rcases h with h | h
        · exact Or.inl h
        · rcases List.mem_cons.mp h with rfl | h'
          · exact Or.inl hx
          · exact Or.inr h'
    · rw [if_neg hx]
      constructor
      · intro h
        rcases h with h | h
        · rcases List.mem_append.mp h with h' | h'
          · exact Or.inl h'
          · exact Or.inr (List.mem_cons.mpr (Or.inl (List.mem_singleton.mp h')))
        · exact Or.inr (List.mem_cons_of_mem x h)
      · intro h
        rcases h with h | h
        · exact Or.inl (List.mem_append.mpr (Or.inl h))
        · rcases List.mem_cons.mp h with rfl | h'
          · exact Or.inl (List.mem_append.mpr (Or.inr (List.mem_singleton.mpr rfl)))
          · exact Or.inr h'

/-- A tag appears in `dedupFirstSeen ts` exactly when it appears in `ts`. -/
theorem mem_dedupFirstSeen (ts : List String) (t : String) :
    t ∈ dedupFirstSeen ts ↔ t ∈ ts := by
  unfold dedupFirstSeen
  rw [mem_foldl_dedup]
  simp

/-- The first-seen dedup fold preserves having no duplicates. -/
theorem nodup_foldl_dedup (ts : List String) :
    ∀ acc : List String, acc.Nodup →
      (List.foldl (fun acc t => if t ∈ acc then acc else acc ++ [t]) acc ts).Nodup := by
  induction ts with
  | nil => intro acc h; exact h
  | cons x xs ih =>
    intro acc h
    rw [List.foldl_cons]
    by_cases hx : x ∈ acc
    · rw [if_pos hx]; exact ih acc h
    · rw [if_neg hx]
      exact ih _ (List.Nodup.append h (List.nodup_singleton x) (by simpa using hx))

/-- `dedupFirstSeen` never repeats a tag. -/
theorem dedupFirstSeen_nodup (ts : List String) : (dedupFirstSeen ts).Nodup :=
  nodup_foldl_dedup ts [] List.nodup_nil

/-- One more tag at the end of the input extends the first-seen dedup. -/
theorem dedupFirstSeen_append (ts : List String) (t : String) :
    dedupFirstSeen (ts ++ [t]) =
      if t ∈ dedupFirstSeen ts then dedupFirstSeen ts else dedupFirstSeen ts ++ [t] := by
  unfold dedupFirstSeen
  rw [List.foldl_append]
  rfl

/-- A tag absent from the input filters to the empty group. -/
theorem filter_tag_nil (c : RawValues) (t : String)
    (h : t ∉ c.map (fun v => v.Tag)) :
    c.filter (fun v => v.Tag == t) = [] := by
  rw [List.filter_eq_nil_iff]
  intro a ha
  simp only [beq_iff_eq]
  intro heq
  exact h (heq ▸ List.mem_map_of_mem (fun v => v.Tag) ha)

/-- Characterization of the `EachTag` accumulation loop: the collected
tags are the first-seen dedup of the input's tags, and every collected
tag's group is the sublist of the input carrying that tag. -/
theorem eachTagFold_spec (c : RawValues) :
    (eachTagFold c).1 = dedupFirstSeen (c.map (fun v => v.Tag)) ∧
    ∀ t, (eachTagFold c).2 t =
      if t ∈ dedupFirstSeen (c.map (fun v => v.Tag))
      then some (c.filter (fun v => v.Tag == t)) else none := by
  induction c using List.reverseRecOn with
  | nil =>
    refine ⟨rfl, ?_⟩
    intro t
    simp [eachTagFold, dedupFirstSeen]
  | append_singleton c v ih =>
    obtain ⟨ih1, ih2⟩ := ih
    have hfold : eachTagFold (c ++ [v]) = eachTagStep (eachTagFold c) v := by
      unfold eachTagFold
      rw [List.foldl_append]
      rfl
    have hmap : (c ++ [v]).map (fun x => x.Tag) = c.map (fun x => x.Tag) ++ [v.Tag] := by
      simp
    have hded := dedupFirstSeen_append (c.map (fun x => x.Tag)) v.Tag
    by_cases hv : v.Tag ∈ dedupFirstSeen (c.map (fun x => x.Tag))
    · have hg : (eachTagFold c).2 v.Tag = some (c.filter (fun x => x.Tag == v.Tag)) := by
        rw [ih2, if_pos hv]
      have hstep : eachTagStep (eachTagFold c) v =
          ((eachTagFold c).1,
           fun t => if t = v.Tag
                    then some (c.filter (fun x => x.Tag == v.Tag) ++ [v])
                    else (eachTagFold c).2 t) := by
        simp only [eachTagStep, hg]
      have hstep1 : (eachTagStep (eachTagFold c) v).1 = (eachTagFold c).1 := by
        rw [hstep]
      have hstep2 : ∀ t, (eachTagStep (eachTagFold c) v).2 t =
          if t = v.Tag
          then some (c.filter (fun x => x.Tag == v.Tag) ++ [v])
          else (eachTagFold c).2 t := by
        intro t
        rw [hstep]
      constructor
      · rw [hfold, hstep1, hmap, hded, if_pos hv, ih1]
      · intro t
        rw [hfold, hstep2 t, hmap, hded, if_pos hv]
        by_cases ht : t = v.Tag
        · subst ht
          rw [if_pos rfl, if_pos hv, List.filter_append]
          simp
        · rw [if_neg ht, ih2 t, List.filter_append]
          have hfv : List.filter (fun x => x.Tag == t) [v] = [] := by
            simp only [List.filter_singleton, Bool.cond_eq_if, beq_iff_eq]
            rw [if_neg (fun heq => ht heq.symm)]
          rw [hfv, List.append_nil]
    · have hg : (eachTagFold c).2 v.Tag = none := by
        rw [ih2, if_neg hv]
      have hstep : eachTagStep (eachTagFold c) v =
          ((eachTagFold c).1 ++ [v.Tag],
           fun t => if t = v.Tag then some [v] else (eachTagFold c).2 t) := by
        simp only [eachTagStep, hg]
      have hstep1 : (eachTagStep (eachTagFold c) v).1 = (eachTagFold c).1 ++ [v.Tag] := by
        rw [hstep]
      have hstep2 : ∀ t, (eachTagStep (eachTagFold c) v).2 t =
          if t = v.Tag then some [v] else (eachTagFold c).2 t := by
        intro t
        rw [hstep]
      constructor
      · rw [hfold, hstep1, hmap, hded, if_neg hv, ih1]
      · intro t
        rw [hfold, hstep2 t, hmap, hded, if_neg hv]
        by_cases ht : t = v.Tag
        · subst ht
          rw [if_pos rfl,
              if_pos (List.mem_append.mpr (Or.inr (List.mem_singleton.mpr rfl))),
              List.filter_append,
              filter_tag_nil c v.Tag ((mem_dedupFirstSeen _ _).not.mp hv)]
          simp
        · rw [if_neg ht, ih2 t, List.filter_append]
          have hmemiff : t ∈ dedupFirstSeen (c.map (fun x => x.Tag)) ++ [v.Tag] ↔
              t ∈ dedupFirstSeen (c.map (fun x => x.Tag)) := by
            rw [List.mem_append, List.mem_singleton]
            exact ⟨fun h => h.resolve_right ht, Or.inl⟩
          have hfv : List.filter (fun x => x.Tag == t) [v] = [] := by
            simp only [List.filter_singleton, Bool.cond_eq_if, beq_iff_eq]
            rw [if_neg (fun heq => ht heq.symm)]
          rw [hfv, List.append_nil]
          by_cases htd : t ∈ dedupFirstSeen (c.map (fun x => x.Tag))
          · rw [if_pos htd, if_pos (hmemiff.mpr htd)]
          · rw [if_neg htd, if_neg (fun h => htd (hmemiff.mp h))]

/-- The count of a candidate in a tag-filtered list. -/
theorem count_filter_tag (a : Candidate) (t : String) (c : RawValues) :
    List.count a (c.filter (fun v => v.Tag == t)) =
      if a.Tag = t then List.count a c else 0 := by
  by_cases h : a.Tag = t
  · rw [if_pos h]
    exact List.count_filter (by simp [h])
  · rw [if_neg h, List.count_eq_zero]
    intro hmem
    have := List.of_mem_filter hmem
    simp only [beq_iff_eq] at this
    exact h this

/-- Summing a map that is non-zero only at one key of a duplicate-free
list collapses to that single value. -/
theorem sum_single_key (tags : List String) (k : String) (n : Nat)
    (hnd : tags.Nodup) (hk : k ∈ tags) :
    (tags.map (fun t => if k = t then n else 0)).sum = n := by
  induction tags with
  | nil => exact absurd hk (List.not_mem_nil k)
  | cons x xs ih =>
    rw [List.map_cons, List.sum_cons]
    rcases List.mem_cons.mp hk with rfl | hx
    · rw [if_pos rfl]
      have hnotin : ∀ t ∈ xs, ¬ k = t := by
        intro t ht heq
        exact (List.nodup_cons.mp hnd).1 (heq ▸ ht)
      have hz : (xs.map (fun t => if k = t then n else 0)).sum = 0 := by
        refine List.sum_eq_zero ?_
        intro m hm
        rcases List.mem_map.mp hm with ⟨t, ht, rfl⟩
        rw [if_neg (hnotin t ht)]
      rw [hz]
      omega
    · have hkx : ¬ k = x := by
        intro heq
        exact (List.nodup_cons.mp hnd).1 (heq ▸ hx)
      rw [if_neg hkx, ih (List.nodup_cons.mp hnd).2 hx]
      omega

/-- C6: `eachTag` emits the tags in first-seen order, hands every tag
exactly the sublist of the input carrying that tag (so each candidate
lands in its own tag's group, in original relative order), and the
emitted groups flatten back to a permutation of the input. Being a pure
function of the input list, it is deterministic for a given input order. -/
theorem eachTag_tag_grouping (c : RawValues) :
    ((eachTag c).map Prod.fst = dedupFirstSeen (c.map (fun v => v.Tag))) ∧
    (∀ t g, (t, g) ∈ eachTag c → g = c.filter (fun v => v.Tag == t)) ∧
    List.Perm (((eachTag c).map Prod.snd).flatten) c := by
  obtain ⟨h1, h2⟩ := eachTagFold_spec c
  refine ⟨?_, ?_, ?_⟩
  · unfold eachTag
    rw [List.map_map]
    have hcomp : (Prod.fst ∘ fun tag => (tag, ((eachTagFold c).2 tag).getD [])) =
        fun tag : String => tag := rfl
    rw [hcomp]
    rw [show List.map (fun tag : String => tag) (eachTagFold c).1 = (eachTagFold c).1 from
      List.map_id' (eachTagFold c).1]
    exact h1
  · intro t g hmem
    unfold eachTag at hmem
    rw [List.mem_map] at hmem
    obtain ⟨tag, htag, heq⟩ := hmem
    have heqt : tag = t := congrArg Prod.fst heq
    have heqg : ((eachTagFold c).2 tag).getD [] = g := congrArg Prod.snd heq
    subst heqt
    rw [← heqg, h2 tag, if_pos (h1 ▸ htag)]
    rfl
  · rw [List.perm_iff_count]
    intro a
    unfold eachTag
    rw [List.map_map, List.count_flatten, List.map_map]
    have hmapeq :
        ((eachTagFold c).1.map
          (List.count a ∘ Prod.snd ∘ fun tag => (tag, ((eachTagFold c).2 tag).getD []))) =
        (eachTagFold c).1.map (fun tag => if a.Tag = tag then List.count a c else 0) := by
      refine List.map_congr_left ?_
      intro tag htag
      simp only [Function.comp]
      rw [h2 tag, if_pos (h1 ▸ htag), Option.getD_some, count_filter_tag]
    rw [hmapeq, h1]
    by_cases ha : a.Tag ∈ dedupFirstSeen (c.map (fun v => v.Tag))
    · exact sum_single_key _ _ _ (dedupFirstSeen_nodup _) ha
    · have hz : ((dedupFirstSeen (c.map (fun v => v.Tag))).map
          (fun tag => if a.Tag = tag then List.count a c else 0)).sum = 0 := by
        refine List.sum_eq_zero ?_
        intro m hm
        rcases List.mem_map.mp hm with ⟨t, ht, rfl⟩
        rw [if_neg (fun heq : a.Tag = t => ha (by rw [heq]; exact ht))]
      rw [hz, Eq.comm, List.count_eq_zero]
      intro hmem
      exact ha ((mem_dedupFirstSeen _ _).mpr
        (List.mem_map_of_mem (fun v => v.Tag) hmem))

/-- The three-candidate, two-tag set of the spec's tag scenario. -/
def tagCands : RawValues :=
  [{ Value := "foo", Display := "foo", Tag := "files" },
   { Value := "bar", Display := "bar", Tag := "files" },
   { Value := "--help", Display := "--help", Tag := "flags" }]

/-- Witness for C6: the `files` group emitted on the scenario set is
exactly the tag-filtered sublist of the input. -/
theorem eachTag_tag_grouping_witness :
    ([{ Value := "foo", Display := "foo", Tag := "files" },
      { Value := "bar", Display := "bar", Tag := "files" }] : RawValues) =
      tagCands.filter (fun v => v.Tag == "files") :=
  (eachTag_tag_grouping tagCands).2.1 "files"
    [{ Value := "foo", Display := "foo", Tag := "files" },
     { Value := "bar", Display := "bar", Tag := "files" }]
    (by decide)

/-- Witness for C5 at a concrete starting bundle and merge sequence. -/
theorem merge_grows_and_usage_last_wins_witness :
    List.lookup "files" (List.foldl Values.Merge bundle0 [bundle1, bundle2]).Messages = some "m0" ∧
    List.lookup "files" (List.foldl Values.Merge bundle0 [bundle1, bundle2]).ListLong = some true ∧
    (List.foldl Values.Merge bundle0 [bundle1, bundle2]).Usage = lastUsage bundle0.Usage [bundle1, bundle2] := by
  obtain ⟨hM, hL, hU⟩ := merge_grows_and_usage_last_wins bundle0 [bundle1, bundle2]
  exact ⟨hM "files" "m0" (by decide), hL "files" true (by decide), hU⟩

/-!  The command layer of `completion.go`, embedded as state transitions. -/

/-- The local keymap modes the command layer touches (`internal/keymap`). -/
inductive LocalKeymap where
  | menuSelect
  | isearch
  | other
deriving DecidableEq, Repr

/-- The producer callbacks handed to the engine: the shell's primary
command completer, the Vim-register completer, or the history completer
with its `forward`/`filterLine` arguments. -/
inductive Producer where
  | command
  | buffers
  | history (forward filterLine : Bool)
deriving DecidableEq, Repr

/-- One call made to an external collaborator (undo log, engine, keymap
controller, hint display, history provider, line buffer). -/
inductive Action where
  | skipSave
  | cancel (clearLine restoreOrig : Bool)
  | setLocal (k : LocalKeymap)
  | generate (p : Producer)
  | select (row col : Int)
  | selectTag (forward : Bool)
  | isearch (name : String) (history : Bool)
  | forceAuto
  | resetForce
  | setHint (m : String)
  | resetHint
  | cycleHist (next : Bool)
  | cutRune (pos : Nat)
deriving DecidableEq, Repr

/-- The completion engine's observable session flags (§4.2 of the spec). -/
structure CompleterState where
  active : Bool
  inserting : Bool
  autoCompleting : Bool
deriving DecidableEq, Repr

/-- Modelled from the spec: the history provider contract of §6 — an
ordered list of sources and the index of the current one. -/
structure HistoriesState where
  sources : List String
  current : Nat
deriving DecidableEq, Repr

/-- Modelled from the spec: `current_source()` — the current source, or
none when no history source is configured. -/
def HistoriesState.currentSource (h : HistoriesState) : Option String :=
  h.sources[h.current]?

/-- Modelled from the spec: `on_last_source()` — whether the provider sits
on its last available source. -/
def HistoriesState.onLastSource (h : HistoriesState) : Bool :=
  !h.sources.isEmpty && h.current == h.sources.length - 1

/-- Modelled from the spec: `cycle(forward)` moves to the next (or
previous) source, wrapping around at the ends. -/
def HistoriesState.cycle (h : HistoriesState) (next : Bool) : HistoriesState :=
  if h.sources.isEmpty then h
  else if next then { h with current := (h.current + 1) % h.sources.length }
  else { h with current := (h.current + h.sources.length - 1) % h.sources.length }

/-- Modelled from the spec: `name()` of the current history source. -/
def HistoriesState.name (h : HistoriesState) : String :=
  h.currentSource.getD ""

/-- The shell state the command layer reads and writes, together with the
trace of collaborator calls each command performs. -/
structure Shell where
  line : List Char
  cursorPos : Nat
  keymapLocal : LocalKeymap
  completer : CompleterState
  histories : HistoriesState
  hint : String
  trace : List Action
deriving DecidableEq, Repr

/-- Log one collaborator call. -/
def emitA (a : Action) (s : Shell) : Shell := { s with trace := s.trace ++ [a] }

/-- `rl.undo.SkipSave()`: mark that this command must not be recorded as
an undoable edit. -/
def undoSkipSave (s : Shell) : Shell := emitA Action.skipSave s

/-- Modelled from the spec: `cancel(clear_line, restore_original)` closes
the session (§4.2). -/
def completerCancel (clearLine restoreOrig : Bool) (s : Shell) : Shell :=
  emitA (Action.cancel clearLine restoreOrig)
    { s with completer := { s.completer with active := false, inserting := false } }

/-- `rl.keymaps.SetLocal(mode)`: switch the local keymap layer. -/
def keymapsSetLocal (k : LocalKeymap) (s : Shell) : Shell :=
  emitA (Action.setLocal k) { s with keymapLocal := k }

/-- `rl.completer.GenerateWith(producer)`: ask the engine to regenerate
candidates from the given producer. -/
def completerGenerateWith (p : Producer) (s : Shell) : Shell :=
  emitA (Action.generate p) s

/-- `rl.completer.Select(row, col)`: move the menu selection. -/
def completerSelect (row col : Int) (s : Shell) : Shell :=
  emitA (Action.select row col) s

/-- `rl.completer.SelectTag(forward)`: jump to the next/previous tag. -/
def completerSelectTag (forward : Bool) (s : Shell) : Shell :=
  emitA (Action.selectTag forward) s

/-- `rl.completer.IsearchStart(name, history)`: enter incremental search. -/
def completerIsearchStart (name : String) (history : Bool) (s : Shell) : Shell :=
  emitA (Action.isearch name history) s

/-- Modelled from the spec: `autocomplete_force()` marks the session as
implicitly opened (§4.2). -/
def completerAutocompleteForce (s : Shell) : Shell :=
  emitA Action.forceAuto { s with completer := { s.completer with autoCompleting := true } }

/-- Modelled from the spec: `ResetForce` force-closes the session and
resets the forced-session flag (the "wrap and exit" teardown of §4.3). -/
def completerResetForce (s : Shell) : Shell :=
  emitA Action.resetForce
    { s with completer :=
        { s.completer with active := false, inserting := false, autoCompleting := false } }

/-- `rl.hint.Set(message)`: show a hint line. -/
def hintSet (m : String) (s : Shell) : Shell := emitA (Action.setHint m) { s with hint := m }

/-- `rl.hint.Reset()`: clear the hint line. -/
def hintReset (s : Shell) : Shell := emitA Action.resetHint { s with hint := "" }

/-- `rl.histories.Cycle(next)`: move the history provider to another source. -/
def historiesCycle (next : Bool) (s : Shell) : Shell :=
  emitA (Action.cycleHist next) { s with histories := s.histories.cycle next }

/-- Modelled from the spec: `CutRune` deletes the character under the
given position of the line buffer. -/
def lineCutRune (pos : Nat) (s : Shell) : Shell :=
  emitA (Action.cutRune pos) { s with line := s.line.eraseIdx pos }

/-- Modelled from the spec: the dim ANSI sequence of `internal/color`. -/
def colorDim : String := "\x1b[2m"

/-- Modelled from the spec: the red-foreground ANSI sequence. -/
def colorFgRed : String := "\x1b[31m"

/-- Modelled from the spec: the reset ANSI sequence. -/
def colorReset : String := "\x1b[0m"

/-- Embeds `startMenuComplete` from `completion.go`. -/
def startMenuComplete (p : Producer) (s : Shell) : Shell :=
  completerGenerateWith p (keymapsSetLocal LocalKeymap.menuSelect (undoSkipSave s))

/-- Embeds `completeWord` ("complete") from `completion.go`. -/
def completeWord (s : Shell) : Shell :=
  let s := undoSkipSave s
  let s := if s.completer.active = false then startMenuComplete Producer.command s else s
  completerSelect 1 0 s

/-- Embeds `possibleCompletions` ("possible-completions"). -/
def possibleCompletions (s : Shell) : Shell :=
  completerGenerateWith Producer.command
    (keymapsSetLocal LocalKeymap.menuSelect
      (completerCancel false false (undoSkipSave s)))

/-- Embeds `insertCompletions` ("insert-completions"): an empty body. -/
def insertCompletions (s : Shell) : Shell := s

/-- Embeds `menuComplete` ("menu-complete"). -/
def menuComplete (s : Shell) : Shell :=
  let s := undoSkipSave s
  if s.completer.active = false then startMenuComplete Producer.command s
  else completerSelect 1 0 s

/-- Embeds `deleteCharOrList` ("delete-char-or-list"). -/
def deleteCharOrList (s : Shell) : Shell :=
  if s.cursorPos < s.line.length then lineCutRune s.cursorPos s
  else possibleCompletions s

/-- Embeds `menuCompleteBackward` ("menu-complete-backward"). -/
def menuCompleteBackward (s : Shell) : Shell :=
  let s := undoSkipSave s
  if s.completer.active = false then s
  else completerSelect (-1) 0 s

/-- Embeds `menuCompleteNextTag` ("menu-complete-next-tag"). -/
def menuCompleteNextTag (s : Shell) : Shell :=
  let s := undoSkipSave s
  if s.completer.active = false then s
  else completerSelectTag true s

/-- Embeds `menuCompletePrevTag` ("menu-complete-prev-tag"). -/
def menuCompletePrevTag (s : Shell) : Shell :=
  let s := undoSkipSave s
  if s.completer.active = false then s
  else completerSelectTag false s

/-- Embeds `acceptAndMenuComplete` ("accept-and-menu-complete"). -/
def acceptAndMenuComplete (s : Shell) : Shell :=
  let s := undoSkipSave s
  if s.completer.active = false then s
  else if s.completer.inserting = false then s
  else completerSelect 1 0 (completerCancel false false s)

/-- Embeds `viRegistersComplete` ("vi-registers-complete"). -/
def viRegistersComplete (s : Shell) : Shell :=
  let s := undoSkipSave s
  if s.completer.active = false then startMenuComplete Producer.buffers s
  else completerSelect 1 0 s

/-- Embeds `menuIncrementalSearch` ("menu-incremental-search"). -/
def menuIncrementalSearch (s : Shell) : Shell :=
  let s := undoSkipSave s
  let s := if s.completer.active = false then completerGenerateWith Producer.command s else s
  completerIsearchStart "completions" false s

/-- Embeds the `completionCommands` registration map from `completion.go`
as an ordered association list. -/
def completionCommands : List (String × (Shell → Shell)) :=
  [("complete", completeWord),
   ("possible-completions", possibleCompletions),
   ("insert-completions", insertCompletions),
   ("menu-complete", menuComplete),
   ("menu-complete-backward", menuCompleteBackward),
   ("delete-char-or-list", deleteCharOrList),
   ("menu-complete-next-tag", menuCompleteNextTag),
   ("menu-complete-prev-tag", menuCompletePrevTag),
   ("accept-and-menu-complete", acceptAndMenuComplete),
   ("vi-registers-complete", viRegistersComplete),
   ("menu-incremental-search", menuIncrementalSearch)]

/-- Embeds the `default:` arm of `historyCompletion`: hint when there is
no source, otherwise open an incremental-search or forced-menu session
against the history producer. -/
def historyCompletionGenerate (forward filterLine incremental : Bool) (s : Shell) : Shell :=
  match s.histories.currentSource with
  | none =>
      hintSet (colorDim ++ colorFgRed ++ "No command history source" ++ " " ++ colorReset) s
  | some _ =>
      if incremental then
        completerIsearchStart s.histories.name true
          (completerGenerateWith (Producer.history forward filterLine) s)
      else
        completerAutocompleteForce
          (startMenuComplete (Producer.history forward filterLine) s)

/-- Embeds `historyCompletion` from `completion.go`. -/
def historyCompletion (forward filterLine incremental : Bool) (s : Shell) : Shell :=
  if s.keymapLocal = LocalKeymap.menuSelect ∨ s.keymapLocal = LocalKeymap.isearch ∨
      s.completer.autoCompleting = true then
    if s.histories.onLastSource = true then
      hintReset (completerResetForce (historiesCycle true s))
    else
      historyCompletionGenerate forward filterLine incremental (historiesCycle true s)
  else
    historyCompletionGenerate forward filterLine incremental s

/-- A command calls the undo log's `skip_save` first on every path. -/
def callsSkipSaveFirst (cmd : Shell → Shell) : Prop :=
  ∀ s, ∃ rest, (cmd s).trace = s.trace ++ Action.skipSave :: rest

/-- A base shell state: inactive completer, cursor inside the line. -/
def shellMid : Shell :=
  { line := ['e', 'c', 'h', 'o'], cursorPos := 2, keymapLocal := LocalKeymap.other,
    completer := { active := false, inserting := false, autoCompleting := false },
    histories := { sources := ["shell"], current := 0 }, hint := "", trace := [] }

/-- A shell state whose cursor sits at the end of the line. -/
def shellAtEnd : Shell :=
  { line := ['e', 'c', 'h', 'o'], cursorPos := 4, keymapLocal := LocalKeymap.other,
    completer := { active := false, inserting := false, autoCompleting := false },
    histories := { sources := ["shell"], current := 0 }, hint := "", trace := [] }

/-- C10: "insert-completions" is registered but its body is empty — it
returns the state unchanged: no engine call, no buffer, keymap or hint
mutation, and (unlike the other commands) not even a `skip_save` call. -/
theorem insert_completions_noop (s : Shell) :
    insertCompletions s = s ∧ (insertCompletions s).trace = s.trace :=
  ⟨rfl, rfl⟩

/-- C1 counterexample: the registered command "insert-completions" never
calls `skip_save`, so not every registered command calls it at entry. -/
theorem commands_skip_save_claim_refuted :
    ¬ (∀ p ∈ completionCommands, callsSkipSaveFirst p.2) := by
  intro h
  obtain ⟨rest, hrest⟩ :=
    h ("insert-completions", insertCompletions) (by simp [completionCommands]) shellMid
  simp [insertCompletions, shellMid] at hrest

/-- C1 (amended): every registered command except "insert-completions"
and "delete-char-or-list" calls `skip_save` first on every path;
"delete-char-or-list" calls it first only when the cursor is at or past
the end of the line (otherwise it only cuts the rune under the cursor),
and "insert-completions" never touches the undo log at all. -/
theorem commands_skip_save_at_entry :
    callsSkipSaveFirst completeWord ∧
    callsSkipSaveFirst possibleCompletions ∧
    callsSkipSaveFirst menuComplete ∧
    callsSkipSaveFirst menuCompleteBackward ∧
    callsSkipSaveFirst menuCompleteNextTag ∧
    callsSkipSaveFirst menuCompletePrevTag ∧
    callsSkipSaveFirst acceptAndMenuComplete ∧
    callsSkipSaveFirst viRegistersComplete ∧
    callsSkipSaveFirst menuIncrementalSearch ∧
    (∀ s : Shell, s.line.length ≤ s.cursorPos →
      ∃ rest, (deleteCharOrList s).trace = s.trace ++ Action.skipSave :: rest) ∧
    (∀ s : Shell, s.cursorPos < s.line.length →
      (deleteCharOrList s).trace = s.trace ++ [Action.cutRune s.cursorPos]) ∧
    (∀ s : Shell, (insertCompletions s).trace = s.trace) := by
  refine ⟨?_, ?_, ?_, ?_, ?_, ?_, ?_, ?_, ?_, ?_, ?_, fun s => rfl⟩
  · intro s
    by_cases h : s.completer.active = false
    · exact ⟨[Action.skipSave, Action.setLocal LocalKeymap.menuSelect,
              Action.generate Producer.command, Action.select 1 0], by
        simp [completeWord, startMenuComplete, undoSkipSave, keymapsSetLocal,
              completerGenerateWith, completerSelect, emitA, h]⟩
    · exact ⟨[Action.select 1 0], by
        simp [completeWord, startMenuComplete, undoSkipSave, keymapsSetLocal,
              completerGenerateWith, completerSelect, emitA, h]⟩
  · intro s
    exact ⟨[Action.cancel false false, Action.setLocal LocalKeymap.menuSelect,
            Action.generate Producer.command], by
      simp [possibleCompletions, undoSkipSave, completerCancel, keymapsSetLocal,
            completerGenerateWith, emitA]⟩
  · intro s
    by_cases h : s.completer.active = false
    · exact ⟨[Action.skipSave, Action.setLocal LocalKeymap.menuSelect,
              Action.generate Producer.command], by
        simp [menuComplete, startMenuComplete, undoSkipSave, keymapsSetLocal,
              completerGenerateWith, completerSelect, emitA, h]⟩
    · exact ⟨[Action.select 1 0], by
        simp [menuComplete, startMenuComplete, undoSkipSave, keymapsSetLocal,
              completerGenerateWith, completerSelect, emitA, h]⟩
  · intro s
    by_cases h : s.completer.active = false
    · exact ⟨[], by simp [menuCompleteBackward, undoSkipSave, completerSelect, emitA, h]⟩
    · exact ⟨[Action.select (-1) 0], by
        simp [menuCompleteBackward, undoSkipSave, completerSelect, emitA, h]⟩
  · intro s
    by_cases h : s.completer.active = false
    · exact ⟨[], by simp [menuCompleteNextTag, undoSkipSave, completerSelectTag, emitA, h]⟩
    · exact ⟨[Action.selectTag true], by
        simp [menuCompleteNextTag, undoSkipSave, completerSelectTag, emitA, h]⟩
  · intro s
    by_cases h : s.completer.active = false
    · exact ⟨[], by simp [menuCompletePrevTag, undoSkipSave, completerSelectTag, emitA, h]⟩
    · exact ⟨[Action.selectTag false], by
        simp [menuCompletePrevTag, undoSkipSave, completerSelectTag, emitA, h]⟩
  · intro s
    by_cases h : s.completer.active = false
    · exact ⟨[], by
        simp [acceptAndMenuComplete, undoSkipSave, completerCancel, completerSelect, emitA, h]⟩
    · by_cases h2 : s.completer.inserting = false
      · exact ⟨[], by
          simp [acceptAndMenuComplete, undoSkipSave, completerCancel, completerSelect,
                emitA, h, h2]⟩
      · exact ⟨[Action.cancel false false, Action.select 1 0], by
          simp [acceptAndMenuComplete, undoSkipSave, completerCancel, completerSelect,
                emitA, h, h2]⟩
  · intro s
    by_cases h : s.completer.active = false
    · exact ⟨[Action.skipSave, Action.setLocal LocalKeymap.menuSelect,
              Action.generate Producer.buffers], by
        simp [viRegistersComplete, startMenuComplete, undoSkipSave, keymapsSetLocal,
              completerGenerateWith, completerSelect, emitA, h]⟩
    · exact ⟨[Action.select 1 0], by
        simp [viRegistersComplete, startMenuComplete, undoSkipSave, keymapsSetLocal,
              completerGenerateWith, completerSelect, emitA, h]⟩
  · intro s
    by_cases h : s.completer.active = false
    · exact ⟨[Action.generate Producer.command, Action.isearch "completions" false], by
        simp [menuIncrementalSearch, undoSkipSave, completerGenerateWith,
              completerIsearchStart, emitA, h]⟩
    · exact ⟨[Action.isearch "completions" false], by
        simp [menuIncrementalSearch, undoSkipSave, completerGenerateWith,
              completerIsearchStart, emitA, h]⟩
  · intro s hs
    refine ⟨[Action.cancel false false, Action.setLocal LocalKeymap.menuSelect,
             Action.generate Producer.command], ?_⟩
    rw [deleteCharOrList, if_neg (not_lt.mpr hs)]
    simp [possibleCompletions, undoSkipSave, completerCancel, keymapsSetLocal,
          completerGenerateWith, emitA]
  · intro s hs
    rw [deleteCharOrList, if_pos hs]
    simp [lineCutRune, emitA]

/-- C8: with the cursor strictly inside the line, delete-char-or-list
cuts exactly the rune under the cursor and performs no completion-related
action; otherwise it is exactly possible-completions: `skip_save`, cancel
the session with `clear_line = false` and `restore_original = false`,
switch the local keymap to menu-select, and regenerate candidates from
the primary producer. -/
theorem delete_char_or_list_dispatch (s : Shell) :
    (s.cursorPos < s.line.length →
      deleteCharOrList s =
        { s with line := s.line.eraseIdx s.cursorPos,
                 trace := s.trace ++ [Action.cutRune s.cursorPos] }) ∧
    (s.line.length ≤ s.cursorPos →
      deleteCharOrList s = possibleCompletions s ∧
      possibleCompletions s =
        { s with keymapLocal := LocalKeymap.menuSelect,
                 completer := { s.completer with active := false, inserting := false },
                 trace := s.trace ++
                   [Action.skipSave, Action.cancel false false,
                    Action.setLocal LocalKeymap.menuSelect,
                    Action.generate Producer.command] }) := by
  constructor
  · intro h
    rw [deleteCharOrList, if_pos h]
    simp [lineCutRune, emitA]
  · intro h
    refine ⟨by rw [deleteCharOrList, if_neg (not_lt.mpr h)], ?_⟩
    simp [possibleCompletions, undoSkipSave, completerCancel, keymapsSetLocal,
          completerGenerateWith, emitA]

/-- Witness for C8 on concrete mid-line and end-of-line shells. -/
theorem delete_char_or_list_dispatch_witness :
    deleteCharOrList shellMid =
      { shellMid with line := shellMid.line.eraseIdx shellMid.cursorPos,
                      trace := shellMid.trace ++ [Action.cutRune shellMid.cursorPos] } ∧
    deleteCharOrList shellAtEnd = possibleCompletions shellAtEnd :=
  ⟨(delete_char_or_list_dispatch shellMid).1 (by decide),
   ((delete_char_or_list_dispatch shellAtEnd).2 (by decide)).1⟩

/-- C9: with no history source (and not in menu/isearch mode nor a forced
session), history-completion only sets a dimmed hint containing "No
command history source": the trace holds a single hint call and the
completion session's state is untouched (so an inactive session stays
inactive). -/
theorem history_completion_no_source (forward filterLine incremental : Bool) (s : Shell)
    (hmode : ¬ (s.keymapLocal = LocalKeymap.menuSelect ∨ s.keymapLocal = LocalKeymap.isearch ∨
        s.completer.autoCompleting = true))
    (hsrc : s.histories.currentSource = none) :
    (∃ pre post, (historyCompletion forward filterLine incremental s).hint =
        pre ++ ("No command history source" ++ post)) ∧
    (historyCompletion forward filterLine incremental s).trace =
      s.trace ++ [Action.setHint
        (colorDim ++ colorFgRed ++ "No command history source" ++ " " ++ colorReset)] ∧
    (historyCompletion forward filterLine incremental s).completer = s.completer := by
  have hred : historyCompletion forward filterLine incremental s =
      hintSet (colorDim ++ colorFgRed ++ "No command history source" ++ " " ++ colorReset) s := by
    rw [historyCompletion, if_neg hmode]
    simp only [historyCompletionGenerate, hsrc]
  rw [hred]
  refine ⟨⟨colorDim ++ colorFgRed, " " ++ colorReset, ?_⟩, ?_, rfl⟩
  · show colorDim ++ colorFgRed ++ "No command history source" ++ " " ++ colorReset =
        colorDim ++ colorFgRed ++ ("No command history source" ++ (" " ++ colorReset))
    decide
  · simp [hintSet, emitA]

/-- C4: in menu-select or isearch mode, or in a forced session — on the
last history source, history-completion cycles back to the first source,
resets the forced-session flag, clears the hint, and does nothing else
(no session is generated); with more sources remaining it cycles to the
next source and falls through to opening a new session against the
history producer. -/
theorem history_completion_source_cycling (forward filterLine incremental : Bool) (s : Shell)
    (hmode : s.keymapLocal = LocalKeymap.menuSelect ∨ s.keymapLocal = LocalKeymap.isearch ∨
        s.completer.autoCompleting = true) :
    (s.histories.onLastSource = true →
      (historyCompletion forward filterLine incremental s).histories.current = 0 ∧
      (historyCompletion forward filterLine incremental s).completer.autoCompleting = false ∧
      (historyCompletion forward filterLine incremental s).hint = "" ∧
      (historyCompletion forward filterLine incremental s).trace =
        s.trace ++ [Action.cycleHist true, Action.resetForce, Action.resetHint]) ∧
    (s.histories.current + 1 < s.histories.sources.length →
      (historyCompletion forward filterLine incremental s).histories.current =
        s.histories.current + 1 ∧
      historyCompletion forward filterLine incremental s =
        historyCompletionGenerate forward filterLine incremental (historiesCycle true s) ∧
      ∃ delta, (historyCompletion forward filterLine incremental s).trace =
          s.trace ++ Action.cycleHist true :: delta ∧
        Action.generate (Producer.history forward filterLine) ∈ delta) := by
  constructor
  · intro hlast
    have hpair : s.histories.sources.isEmpty = false ∧
        s.histories.current = s.histories.sources.length - 1 := by
      have h' := hlast
      unfold HistoriesState.onLastSource at h'
      rw [Bool.and_eq_true, Bool.not_eq_true', beq_iff_eq] at h'
      exact h'
    have hlen : 0 < s.histories.sources.length := by
      refine List.length_pos.mpr ?_
      intro hnil
      rw [hnil] at hpair
      simp at hpair
    rw [historyCompletion, if_pos hmode, if_pos hlast]
    have hcur : (s.histories.cycle true).current = 0 := by
      unfold HistoriesState.cycle
      rw [if_neg (by rw [hpair.1]; exact Bool.false_ne_true), if_pos rfl]
      show (s.histories.current + 1) % s.histories.sources.length = 0
      rw [hpair.2, Nat.sub_add_cancel hlen, Nat.mod_self]
    refine ⟨hcur, rfl, rfl, ?_⟩
    simp [hintReset, completerResetForce, historiesCycle, emitA]
  · intro hlt
    have hlen : 0 < s.histories.sources.length := by omega
    have hne : s.histories.current ≠ s.histories.sources.length - 1 := by omega
    have hnotlast : ¬ (s.histories.onLastSource = true) := by
      unfold HistoriesState.onLastSource
      rw [show (s.histories.current == s.histories.sources.length - 1) = false from
            beq_eq_false_iff_ne.mpr hne,
          Bool.and_false]
      exact Bool.false_ne_true
    have hisEmpty : s.histories.sources.isEmpty = false := by
      have hni : s.histories.sources ≠ [] := List.ne_nil_of_length_pos hlen
      cases hb : s.histories.sources.isEmpty with
      | false => rfl
      | true => exact absurd (List.isEmpty_iff.mp hb) hni
    rw [historyCompletion, if_pos hmode, if_neg hnotlast]
    have hcyc : s.histories.cycle true = { s.histories with current := s.histories.current + 1 } := by
      unfold HistoriesState.cycle
      rw [if_neg (by rw [hisEmpty]; exact Bool.false_ne_true), if_pos rfl,
          Nat.mod_eq_of_lt hlt]
    have hsources : (historiesCycle true s).histories.currentSource =
        some (s.histories.sources.get ⟨s.histories.current + 1, hlt⟩) := by
      show (s.histories.cycle true).currentSource = _
      rw [hcyc]
      unfold HistoriesState.currentSource
      show s.histories.sources[s.histories.current + 1]? = _
      rw [List.getElem?_eq_getElem hlt]
      simp [List.get_eq_getElem]
    have hgen : historyCompletionGenerate forward filterLine incremental (historiesCycle true s) =
        (if incremental = true then
          completerIsearchStart (historiesCycle true s).histories.name true
            (completerGenerateWith (Producer.history forward filterLine) (historiesCycle true s))
        else
          completerAutocompleteForce
            (startMenuComplete (Producer.history forward filterLine) (historiesCycle true s))) := by
      unfold historyCompletionGenerate
      rw [hsources]
    refine ⟨?_, rfl, ?_⟩
    · rw [hgen]
      cases incremental with
      | false =>
        show (s.histories.cycle true).current = s.histories.current + 1
        rw [hcyc]
      | true =>
        show (s.histories.cycle true).current = s.histories.current + 1
        rw [hcyc]
    · rw [hgen]
      cases incremental with
      | false =>
        refine ⟨[Action.skipSave, Action.setLocal LocalKeymap.menuSelect,
                 Action.generate (Producer.history forward filterLine), Action.forceAuto],
                ?_, by simp⟩
        simp [completerAutocompleteForce, startMenuComplete, undoSkipSave,
              keymapsSetLocal, completerGenerateWith, historiesCycle, emitA]
      | true =>
        refine ⟨[Action.generate (Producer.history forward filterLine),
                 Action.isearch (historiesCycle true s).histories.name true],
                ?_, by simp⟩
        simp [completerIsearchStart, completerGenerateWith, historiesCycle, emitA]

/-- A shell in menu-select mode sitting on the last of two sources. -/
def shellWrap : Shell :=
  { line := [], cursorPos := 0, keymapLocal := LocalKeymap.menuSelect,
    completer := { active := true, inserting := false, autoCompleting := true },
    histories := { sources := ["shell", "local"], current := 1 }, hint := "old", trace := [] }

/-- A shell in menu-select mode sitting on the first of two sources. -/
def shellNext : Shell :=
  { line := [], cursorPos := 0, keymapLocal := LocalKeymap.menuSelect,
    completer := { active := true, inserting := false, autoCompleting := true },
    histories := { sources := ["shell", "local"], current := 0 }, hint := "", trace := [] }

/-- Witness for C4: on the last of two sources history-completion wraps
to source 0 and tears the session down; on the first source it advances
to source 1. -/
theorem history_completion_source_cycling_witness :
    ((historyCompletion true false false shellWrap).histories.current = 0 ∧
     (historyCompletion true false false shellWrap).completer.autoCompleting = false ∧
     (historyCompletion true false false shellWrap).hint = "" ∧
     (historyCompletion true false false shellWrap).trace =
       shellWrap.trace ++ [Action.cycleHist true, Action.resetForce, Action.resetHint]) ∧
    (historyCompletion true false false shellNext).histories.current =
      shellNext.histories.current + 1 :=
  ⟨(history_completion_source_cycling true false false shellWrap (by decide)).1 (by decide),
   ((history_completion_source_cycling true false false shellNext (by decide)).2 (by decide)).1⟩

/-- A shell with no history sources configured at all. -/
def shellNoHist : Shell :=
  { line := [], cursorPos := 0, keymapLocal := LocalKeymap.other,
    completer := { active := false, inserting := false, autoCompleting := false },
    histories := { sources := [], current := 0 }, hint := "", trace := [] }

/-- Witness for C9 on a shell with zero history sources: the hint is set
and the session stays inactive. -/
theorem history_completion_no_source_witness :
    ((∃ pre post, (historyCompletion true false false shellNoHist).hint =
        pre ++ ("No command history source" ++ post)) ∧
     (historyCompletion true false false shellNoHist).trace =
       shellNoHist.trace ++ [Action.setHint
         (colorDim ++ colorFgRed ++ "No command history source" ++ " " ++ colorReset)] ∧
     (historyCompletion true false false shellNoHist).completer = shellNoHist.completer) ∧
    (historyCompletion true false false shellNoHist).completer.active = false :=
  ⟨history_completion_no_source true false false shellNoHist (by decide) (by decide),
   by decide⟩

/-- Witness for C1 (amended) on the delete-char-or-list branches. -/
theorem commands_skip_save_at_entry_witness :
    (∃ rest, (deleteCharOrList shellAtEnd).trace = shellAtEnd.trace ++ Action.skipSave :: rest) ∧
    (deleteCharOrList shellMid).trace = shellMid.trace ++ [Action.cutRune shellMid.cursorPos] :=
  ⟨commands_skip_save_at_entry.2.2.2.2.2.2.2.2.2.1 shellAtEnd (by decide),
   commands_skip_save_at_entry.2.2.2.2.2.2.2.2.2.2.1 shellMid (by decide)⟩

end Readline
